import Mathlib

/-!
Verification of the JaxRK cross-validation linear-algebra toolkit and
conditional-operator constructors.

The embedding covers, over exact rationals:
  - jaxrk/utilities/cv.py : selection matrices, leave-one-out and random
    cross-validation index generation, batched submatrix inversion;
  - jaxrk/models/conditional_operator.py : Cmo, RidgeCmo, Cdo;
  - jaxrk/utilities/inducing.py : inducing_set.

Arrays are total functions on Fin types, matrices are Mathlib matrices over
the rationals, and the JAX scatter update semantics (out-of-bounds updates
are dropped) is modelled explicitly.
-/

namespace JaxRK

open scoped Matrix

/-- One JAX scatter update t.at[s, r, c].set v on a tensor of shape
(S, k, N).  Out-of-range coordinates match no position of the result, so the
update is dropped, exactly as in the array backend's default scatter mode. -/
def jset (N S k : ℕ) (t : Fin S → Fin k → Fin N → ℚ) (s r c : ℕ) (v : ℚ) :
    Fin S → Fin k → Fin N → ℚ :=
  fun s' r' c' => if (s' : ℕ) = s ∧ (r' : ℕ) = r ∧ (c' : ℕ) = c then v else t s' r' c'

/-- Inner loop of idcs_to_selection_matr: for r, c in enumerate(vi):
rval = rval.at[split, r, c].set(1.0), with r starting at the given offset. -/
def setRow (N S k : ℕ) (s : ℕ) :
    ℕ → List ℕ → (Fin S → Fin k → Fin N → ℚ) → Fin S → Fin k → Fin N → ℚ
  | _, [], t => t
  | r, c :: cs, t => setRow N S k s (r + 1) cs (jset N S k t s r c 1)

/-- Outer loop of idcs_to_selection_matr: for split, vi in enumerate(idcs). -/
def setSplits (N S k : ℕ) :
    ℕ → List (List ℕ) → (Fin S → Fin k → Fin N → ℚ) → Fin S → Fin k → Fin N → ℚ
  | _, [], t => t
  | s, row :: rows, t => setSplits N S k (s + 1) rows (setRow N S k s 0 row t)

/-- Row of the index array after the optional np.sort(idcs, 1) step:
the original row when idcs_sorted, otherwise the row sorted ascending. -/
def splitRow (S k : ℕ) (idcs : Fin S → Fin k → ℕ) (idcs_sorted : Bool) (s : Fin S) :
    List ℕ :=
  if idcs_sorted then List.ofFn (idcs s) else (List.ofFn (idcs s)).insertionSort (· ≤ ·)

/-- idcs_to_selection_matr(n_orig, idcs, idcs_sorted) from cv.py: sort each
row unless idcs_sorted, allocate a zero tensor of shape (num_splits, k,
n_orig) and set entry [split, r, c] to 1.0 for every index c at position r of
the (sorted) row of each split. -/
def idcs_to_selection_matr (N S k : ℕ) (idcs : Fin S → Fin k → ℕ)
    (idcs_sorted : Bool) : Fin S → Fin k → Fin N → ℚ :=
  setSplits N S k 0 (List.ofFn fun s => splitRow S k idcs idcs_sorted s)
    (fun _ _ _ => 0)

theorem setRow_apply (N S k : ℕ) (s : ℕ) (l : List ℕ) (r0 : ℕ)
    (t : Fin S → Fin k → Fin N → ℚ) (s' : Fin S) (r' : Fin k) (c' : Fin N) :
    setRow N S k s r0 l t s' r' c' =
      if (s' : ℕ) = s ∧ r0 ≤ (r' : ℕ) ∧ (r' : ℕ) - r0 < l.length ∧
          (c' : ℕ) = l.getD ((r' : ℕ) - r0) 0
      then 1 else t s' r' c' := by
  induction l generalizing r0 t with
  | nil => simp [setRow]
  | cons c cs ih =>
    rw [setRow, ih]
    rcases Nat.lt_trichotomy (r' : ℕ) r0 with h | h | h
    · have h1 : ¬ (r0 + 1 ≤ (r' : ℕ)) := by omega
      have h2 : ¬ (r0 ≤ (r' : ℕ)) := by omega
      have h3 : (r' : ℕ) ≠ r0 := by omega
      rw [if_neg (fun hx => h1 hx.2.1), if_neg (fun hx => h2 hx.2.1)]
      unfold jset
      exact if_neg (fun hx => h3 hx.2.1)
    · have h1 : ¬ (r0 + 1 ≤ (r' : ℕ)) := by omega
      have h2 : (r' : ℕ) - r0 = 0 := by omega
      rw [if_neg (fun hx => h1 hx.2.1), h2]
      unfold jset
      simp only [List.getD_cons_zero, List.length_cons]
      exact if_congr (by omega) rfl rfl
    · have h1 : (r' : ℕ) ≠ r0 := by omega
      have h2 : (r' : ℕ) - r0 = ((r' : ℕ) - (r0 + 1)) + 1 := by omega
      rw [h2]
      unfold jset
      rw [if_congr (Iff.rfl) rfl (if_neg (fun hx => h1 hx.2.1))]
      simp only [List.getD_cons_succ, List.length_cons]
      exact if_congr (by omega) rfl rfl

theorem setSplits_apply (N S k : ℕ) (rows : List (List ℕ)) (s0 : ℕ)
    (t : Fin S → Fin k → Fin N → ℚ) (s' : Fin S) (r' : Fin k) (c' : Fin N) :
    setSplits N S k s0 rows t s' r' c' =
      if s0 ≤ (s' : ℕ) ∧ (s' : ℕ) - s0 < rows.length ∧
          (r' : ℕ) < (rows.getD ((s' : ℕ) - s0) []).length ∧
          (c' : ℕ) = (rows.getD ((s' : ℕ) - s0) []).getD (r' : ℕ) 0
      then 1 else t s' r' c' := by
  induction rows generalizing s0 t with
  | nil => simp [setSplits]
  | cons row rows ih =>
    rw [setSplits, ih, setRow_apply]
    rcases Nat.lt_trichotomy (s' : ℕ) s0 with h | h | h
    · rw [if_neg (fun hx => (by omega : ¬ (s0 + 1 ≤ (s' : ℕ))) hx.1),
        if_neg (fun hx => (by omega : (s' : ℕ) ≠ s0) hx.1),
        if_neg (fun hx => (by omega : ¬ (s0 ≤ (s' : ℕ))) hx.1)]
    · rw [if_neg (fun hx => (by omega : ¬ (s0 + 1 ≤ (s' : ℕ))) hx.1),
        show (s' : ℕ) - s0 = 0 from by omega]
      simp only [List.getD_cons_zero, List.length_cons, Nat.sub_zero]
      exact if_congr (by omega) rfl rfl
    · rw [if_congr Iff.rfl rfl (if_neg (fun hx => (by omega : (s' : ℕ) ≠ s0) hx.1)),
        show (s' : ℕ) - s0 = ((s' : ℕ) - (s0 + 1)) + 1 from by omega]
      simp only [List.getD_cons_succ, List.length_cons]
      exact if_congr (by omega) rfl rfl

theorem splitRow_length (S k : ℕ) (idcs : Fin S → Fin k → ℕ) (b : Bool) (s : Fin S) :
    (splitRow S k idcs b s).length = k := by
  cases b <;>
    simp [splitRow, List.length_insertionSort, List.length_ofFn]

/-- Pointwise value of the selection tensor: entry [s, r, c] is 1.0 exactly
when c equals the element at position r of the (optionally sorted) row of
split s, and 0.0 otherwise. -/
theorem idcs_to_selection_matr_apply (N S k : ℕ) (idcs : Fin S → Fin k → ℕ)
    (b : Bool) (s : Fin S) (r : Fin k) (c : Fin N) :
    idcs_to_selection_matr N S k idcs b s r c =
      if (c : ℕ) = (splitRow S k idcs b s).getD (r : ℕ) 0 then 1 else 0 := by
  unfold idcs_to_selection_matr
  rw [setSplits_apply]
  simp only [Nat.sub_zero, List.length_ofFn]
  have hget : (List.ofFn fun s0 => splitRow S k idcs b s0).getD (s : ℕ) [] =
      splitRow S k idcs b s := by
    rw [List.getD_eq_getElem?_getD, List.getElem?_eq_getElem (by simp [s.isLt]),
      Option.getD_some, List.getElem_ofFn]
  rw [hget]
  have hr : (r : ℕ) < (splitRow S k idcs b s).length := by
    rw [splitRow_length]; exact r.isLt
  exact if_congr (by simp [s.isLt, hr, Nat.zero_le]) rfl rfl

theorem splitRow_mem (S k : ℕ) (idcs : Fin S → Fin k → ℕ) (b : Bool) (s : Fin S)
    (x : ℕ) : x ∈ splitRow S k idcs b s ↔ ∃ r, idcs s r = x := by
  cases b <;>
    simp [splitRow, List.mem_insertionSort, List.mem_ofFn, Set.mem_range]

theorem splitRow_getD_mem (S k : ℕ) (idcs : Fin S → Fin k → ℕ) (b : Bool)
    (s : Fin S) (r : Fin k) :
    (splitRow S k idcs b s).getD (r : ℕ) 0 ∈ splitRow S k idcs b s := by
  have hr : (r : ℕ) < (splitRow S k idcs b s).length := by
    rw [splitRow_length]; exact r.isLt
  rw [List.getD_eq_getElem?_getD, List.getElem?_eq_getElem hr, Option.getD_some]
  exact List.getElem_mem hr

theorem splitRow_getD_lt (N S k : ℕ) (idcs : Fin S → Fin k → ℕ) (b : Bool)
    (hin : ∀ s r, idcs s r < N) (s : Fin S) (r : Fin k) :
    (splitRow S k idcs b s).getD (r : ℕ) 0 < N := by
  obtain ⟨r', hr'⟩ := (splitRow_mem S k idcs b s _).1 (splitRow_getD_mem S k idcs b s r)
  rw [← hr']
  exact hin s r'

/-- C1: for indices in [0, N), the selection tensor has entry [s, r, c] equal
to 1.0 exactly when c is the r-th index of split s, after sorting the split's
row ascending when idcs_sorted is false; consequently multiplying the split's
selection matrix by any N-row matrix M extracts the rows of M at the split's
(sorted unless idcs_sorted) indices. -/
theorem selection_matr_spec (N S k : ℕ) (idcs : Fin S → Fin k → ℕ) (b : Bool)
    (hin : ∀ s r, idcs s r < N) :
    (∀ (s : Fin S) (r : Fin k) (c : Fin N),
        idcs_to_selection_matr N S k idcs b s r c =
          if (c : ℕ) = (splitRow S k idcs b s).getD (r : ℕ) 0 then 1 else 0) ∧
    (∀ (p : ℕ) (M : Matrix (Fin N) (Fin p) ℚ) (s : Fin S) (r : Fin k) (j : Fin p)
        (i : Fin N), (i : ℕ) = (splitRow S k idcs b s).getD (r : ℕ) 0 →
        (Matrix.of (idcs_to_selection_matr N S k idcs b s) * M) r j = M i j) := by
  constructor
  · intro s r c
    exact idcs_to_selection_matr_apply N S k idcs b s r c
  · intro p M s r j i hi
    rw [Matrix.mul_apply]
    have hv : ∀ cI : Fin N,
        Matrix.of (idcs_to_selection_matr N S k idcs b s) r cI =
          if cI = i then 1 else 0 := by
      intro cI
      rw [Matrix.of_apply, idcs_to_selection_matr_apply]
      refine if_congr ?_ rfl rfl
      rw [← hi]
      exact ⟨fun h => Fin.ext h, fun h => congrArg Fin.val h⟩
    simp only [hv, ite_mul, one_mul, zero_mul]
    rw [Finset.sum_ite_eq' Finset.univ i fun cI => M cI j]
    simp

/-- Concrete instance of selection_matr_spec: selecting with sorted indices
[0, 2] from a 3-row matrix puts row 2 of M in row 1 of the product. -/
theorem selection_matr_spec_witness :
    (Matrix.of (idcs_to_selection_matr 3 1 2 ![![2, 0]] false 0) *
        Matrix.of (fun (i : Fin 3) (_ : Fin 1) => ((i : ℕ) : ℚ) + 5)) 1 0 = 7 := by
  have h := (selection_matr_spec 3 1 2 ![![2, 0]] false (by decide)).2 1
    (Matrix.of fun (i : Fin 3) (_ : Fin 1) => ((i : ℕ) : ℚ) + 5) 0 1 0 2 (by decide)
  rw [h, Matrix.of_apply]
  norm_num

theorem getD_ofFn {α : Type} (S : ℕ) (f : Fin S → α) (s : Fin S) (d : α) :
    (List.ofFn f).getD (s : ℕ) d = f s := by
  rw [List.getD_eq_getElem?_getD, List.getElem?_eq_getElem (by simp [s.isLt]),
    Option.getD_some, List.getElem_ofFn]

/-- loo_train_val(n_orig) from cv.py: val = np.arange(n_orig); train stacks
np.delete(val, i) for each i in val (deletion at position i); val is
reshaped into one column per row. -/
def loo_train_val (n : ℕ) : List (List ℕ) × List (List ℕ) :=
  ((List.range n).map fun i => (List.range n).eraseIdx i,
    (List.range n).map fun i => [i])

theorem loo_train_row (n i : ℕ) (hi : i < n) :
    (loo_train_val n).1.getD i [] = (List.range n).eraseIdx i := by
  unfold loo_train_val
  rw [List.getD_eq_getElem?_getD, List.getElem?_eq_getElem (by simp [hi]),
    Option.getD_some, List.getElem_map, List.getElem_range]

theorem mem_eraseIdx_range (n i j : ℕ) (hi : i < n) :
    j ∈ (List.range n).eraseIdx i ↔ j < n ∧ j ≠ i := by
  have hlen : ((List.range n).eraseIdx i).length = n - 1 := by
    rw [List.length_eraseIdx_of_lt (by simpa using hi), List.length_range]
  constructor
  · intro hj
    obtain ⟨m, hm, hval⟩ := List.mem_iff_getElem.1 hj
    rw [hlen] at hm
    rw [List.getElem_eraseIdx] at hval
    by_cases hmi : m < i
    · rw [dif_pos hmi, List.getElem_range] at hval
      omega
    · rw [dif_neg hmi, List.getElem_range] at hval
      omega
  · rintro ⟨hjn, hji⟩
    rcases Nat.lt_or_ge j i with hj | hj
    · refine List.mem_iff_getElem.2 ⟨j, by rw [hlen]; omega, ?_⟩
      rw [List.getElem_eraseIdx, dif_pos hj, List.getElem_range]
    · refine List.mem_iff_getElem.2 ⟨j - 1, by rw [hlen]; omega, ?_⟩
      rw [List.getElem_eraseIdx, dif_neg (by omega), List.getElem_range]
      omega

/-- C4: loo_train_val(n) yields an (n, n-1) train matrix whose row i lists
all indices of [0, n) except i in ascending order, and an (n, 1) val matrix
whose row i is [i]; it is a pure function of n alone (no randomness). -/
theorem loo_train_val_spec (n : ℕ) (hn : 1 < n) :
    (loo_train_val n).1.length = n ∧
    (loo_train_val n).2.length = n ∧
    (∀ i, i < n → (loo_train_val n).2.getD i [] = [i]) ∧
    (∀ i, i < n →
      ((loo_train_val n).1.getD i []).length = n - 1 ∧
      List.Sorted (· < ·) ((loo_train_val n).1.getD i []) ∧
      (∀ j, j ∈ (loo_train_val n).1.getD i [] ↔ j < n ∧ j ≠ i)) := by
  refine ⟨by simp [loo_train_val], by simp [loo_train_val], ?_, ?_⟩
  · intro i hi
    unfold loo_train_val
    rw [List.getD_eq_getElem?_getD, List.getElem?_eq_getElem (by simp [hi]),
      Option.getD_some, List.getElem_map, List.getElem_range]
  · intro i hi
    rw [loo_train_row n i hi]
    refine ⟨?_, ?_, fun j => mem_eraseIdx_range n i j hi⟩
    · rw [List.length_eraseIdx_of_lt (by simpa using hi), List.length_range]
    · exact (List.pairwise_lt_range n).eraseIdx i

/-- Concrete instance of loo_train_val_spec at n = 3: row 1 of the train
matrix contains 2 but not 1. -/
theorem loo_train_val_spec_witness :
    2 ∈ (loo_train_val 3).1.getD 1 [] ∧ 1 ∉ (loo_train_val 3).1.getD 1 [] := by
  have h := loo_train_val_spec 3 (by decide)
  constructor
  · exact ((h.2.2.2 1 (by decide)).2.2 2).2 ⟨by decide, by decide⟩
  · intro hmem
    exact (((h.2.2.2 1 (by decide)).2.2 1).1 hmem).2 rfl

/-- cv_train_val(n_orig, n_train, n_splits, rng) from cv.py: the random
source rng is modelled by the family of rows drawn by
vmap(random.permutation)(random.split(rng, n_splits), n_orig); each row is a
permutation of arange(n_orig) and is cut into its first n_train columns
(train) and the remaining columns (val). -/
def cv_train_val (n n_train S : ℕ) (perms : Fin S → List ℕ) :
    List (List ℕ) × List (List ℕ) :=
  (List.ofFn fun s => (perms s).take n_train,
    List.ofFn fun s => (perms s).drop n_train)

/-- C5: for 0 < n_train < n and a random source yielding permutations of
[0, n), cv_train_val returns train of shape (S, n_train) and val of shape
(S, n - n_train) whose rows are disjoint and together contain every index of
[0, n) exactly once. -/
theorem cv_train_val_partition (n n_train S : ℕ) (perms : Fin S → List ℕ)
    (h0 : 0 < n_train) (h1 : n_train < n)
    (hp : ∀ s, (perms s).Perm (List.range n)) :
    (cv_train_val n n_train S perms).1.length = S ∧
    (cv_train_val n n_train S perms).2.length = S ∧
    (∀ s : Fin S,
      ((cv_train_val n n_train S perms).1.getD (s : ℕ) []).length = n_train ∧
      ((cv_train_val n n_train S perms).2.getD (s : ℕ) []).length = n - n_train ∧
      (∀ j, j ∈ (cv_train_val n n_train S perms).1.getD (s : ℕ) [] →
        j ∉ (cv_train_val n n_train S perms).2.getD (s : ℕ) []) ∧
      (∀ j, j < n →
        ((cv_train_val n n_train S perms).1.getD (s : ℕ) [] ++
          (cv_train_val n n_train S perms).2.getD (s : ℕ) []).count j = 1)) := by
  refine ⟨by simp [cv_train_val], by simp [cv_train_val], ?_⟩
  intro s
  have hlenP : (perms s).length = n := by
    rw [(hp s).length_eq, List.length_range]
  have hnodup : (perms s).Nodup := (hp s).nodup_iff.2 (List.nodup_range n)
  have htr : (cv_train_val n n_train S perms).1.getD (s : ℕ) [] =
      (perms s).take n_train :=
    getD_ofFn S (fun s0 => (perms s0).take n_train) s []
  have hvl : (cv_train_val n n_train S perms).2.getD (s : ℕ) [] =
      (perms s).drop n_train :=
    getD_ofFn S (fun s0 => (perms s0).drop n_train) s []
  rw [htr, hvl]
  have happ : (perms s).take n_train ++ (perms s).drop n_train = perms s :=
    List.take_append_drop n_train (perms s)
  refine ⟨?_, ?_, ?_, ?_⟩
  · rw [List.length_take, hlenP]
    omega
  · rw [List.length_drop, hlenP]
  · have hnd : ((perms s).take n_train ++ (perms s).drop n_train).Nodup := by
      rw [happ]; exact hnodup
    exact fun j hj hj' => (List.nodup_append.1 hnd).2.2 hj hj'
  · intro j hj
    rw [happ, (hp s).count_eq]
    exact List.count_eq_one_of_mem (List.nodup_range n) (List.mem_range.2 hj)

/-- Concrete instance of cv_train_val_partition: with one split drawing the
permutation [2, 0, 1] of [0, 3), index 0 appears exactly once across the
concatenated train and val row. -/
theorem cv_train_val_partition_witness :
    ((cv_train_val 3 2 1 (fun _ => [2, 0, 1])).1.getD 0 [] ++
      (cv_train_val 3 2 1 (fun _ => [2, 0, 1])).2.getD 0 []).count 0 = 1 := by
  have hp : ∀ s : Fin 1, ((fun _ : Fin 1 => ([2, 0, 1] : List ℕ)) s).Perm
      (List.range 3) := by
    intro s
    show ([2, 0, 1] : List ℕ).Perm (List.range 3)
    decide
  exact ((cv_train_val_partition 3 2 1 (fun _ => [2, 0, 1]) (by decide) (by decide)
    hp).2.2 0).2.2.2 0 (by decide)

/-- np.linalg.inv over exact rationals, by the adjugate formula
det(A)⁻¹ • adj(A).  For invertible A this is the matrix inverse; for
singular A the backend returns unusable values without raising, modelled
here by the junk value obtained from det(A)⁻¹ = 0. -/
def jnpInv (k : ℕ) (A : Matrix (Fin k) (Fin k) ℚ) : Matrix (Fin k) (Fin k) ℚ :=
  (A.det)⁻¹ • A.adjugate

/-- vinvert = jit(vmap(np.linalg.inv)) from cv.py. -/
def vinvert (S k : ℕ) (ms : Fin S → Matrix (Fin k) (Fin k) ℚ) :
    Fin S → Matrix (Fin k) (Fin k) ℚ :=
  fun s => jnpInv k (ms s)

/-- select_rows = jit(vmap(lambda sel, inp: sel @ inp, (0, None))) from cv.py. -/
def select_rows (S a b p : ℕ) (sel : Fin S → Matrix (Fin a) (Fin b) ℚ)
    (inp : Matrix (Fin b) (Fin p) ℚ) : Fin S → Matrix (Fin a) (Fin p) ℚ :=
  fun s => sel s * inp

/-- sym_matmul_fixed_inp = jit(vmap(lambda sel, inp: sel @ inp @ sel.T,
(0, None))) from cv.py: one shared inp against a batch of sel. -/
def sym_matmul_fixed_inp (S a b : ℕ) (sel : Fin S → Matrix (Fin a) (Fin b) ℚ)
    (inp : Matrix (Fin b) (Fin b) ℚ) : Fin S → Matrix (Fin a) (Fin a) ℚ :=
  fun s => sel s * inp * (sel s)ᵀ

/-- sym_matmul_variable_inp = jit(vmap(lambda sel, inp: sel @ inp @ sel.T))
from cv.py: sel and inp paired batch-for-batch. -/
def sym_matmul_variable_inp (S a b : ℕ) (sel : Fin S → Matrix (Fin a) (Fin b) ℚ)
    (inp : Fin S → Matrix (Fin b) (Fin b) ℚ) : Fin S → Matrix (Fin a) (Fin a) ℚ :=
  fun s => sel s * inp s * (sel s)ᵀ

/-- The batch of selection matrices built inside invert_submatr from
train_idcs (idcs_sorted left at its default False). -/
def train_sel_matr (N S k : ℕ) (train_idcs : Fin S → Fin k → ℕ) :
    Fin S → Matrix (Fin k) (Fin N) ℚ :=
  fun s => Matrix.of (idcs_to_selection_matr N S k train_idcs false s)

/-- The batch of extracted principal submatrices sel @ gram @ selᵀ. -/
def submatr (N S k : ℕ) (gram : Matrix (Fin N) (Fin N) ℚ)
    (train_idcs : Fin S → Fin k → ℕ) : Fin S → Matrix (Fin k) (Fin k) ℚ :=
  sym_matmul_fixed_inp S k N (train_sel_matr N S k train_idcs) gram

/-- invert_submatr(gram, train_idcs, zerofill) from cv.py: build selection
matrices, extract the submatrices, invert the batch, and when zerofill
re-embed each inverse as selᵀ @ inv @ sel (sym_matmul_variable_inp on the
swapaxes-transposed selection batch); the left summand is the zerofilled
N×N batch, the right summand the raw k×k batch. -/
def invert_submatr (N S k : ℕ) (gram : Matrix (Fin N) (Fin N) ℚ)
    (train_idcs : Fin S → Fin k → ℕ) (zerofill : Bool) :
    (Fin S → Matrix (Fin N) (Fin N) ℚ) ⊕ (Fin S → Matrix (Fin k) (Fin k) ℚ) :=
  let sel := train_sel_matr N S k train_idcs
  let rval := vinvert S k (sym_matmul_fixed_inp S k N sel gram)
  match zerofill with
  | true => Sum.inl (sym_matmul_variable_inp S N k (fun s => (sel s)ᵀ) rval)
  | false => Sum.inr rval

theorem jnpInv_mul (k : ℕ) (A : Matrix (Fin k) (Fin k) ℚ) (h : A.det ≠ 0) :
    jnpInv k A * A = 1 ∧ A * jnpInv k A = 1 := by
  constructor
  · rw [jnpInv, Matrix.smul_mul, Matrix.adjugate_mul, smul_smul,
      inv_mul_cancel₀ h, one_smul]
  · rw [jnpInv, Matrix.mul_smul, Matrix.mul_adjugate, smul_smul,
      inv_mul_cancel₀ h, one_smul]

theorem sel_witness_val (c : Fin 2) :
    train_sel_matr 2 1 1 ![![0]] 0 0 c = if (c : ℕ) = 0 then 1 else 0 := by
  rw [train_sel_matr, Matrix.of_apply, idcs_to_selection_matr_apply,
    show (splitRow 1 1 ![![0]] false 0).getD ((0 : Fin 1) : ℕ) 0 = 0 from by decide]

theorem submatr_witness_det :
    (submatr 2 1 1 !![(2 : ℚ), 0; 0, 3] ![![0]] 0).det ≠ 0 := by
  rw [Matrix.det_fin_one]
  show (train_sel_matr 2 1 1 ![![0]] 0 * !![(2 : ℚ), 0; 0, 3] *
      (train_sel_matr 2 1 1 ![![0]] 0)ᵀ) 0 0 ≠ 0
  simp only [Matrix.mul_apply, Matrix.transpose_apply, Fin.sum_univ_succ,
    Fin.sum_univ_zero, sel_witness_val]
  norm_num

/-- C2: with zerofill = False, every batch entry whose extracted principal
submatrix sel @ gram @ selᵀ is non-singular is the inverse of that
submatrix: multiplying it by the submatrix gives the k×k identity. -/
theorem invert_submatr_nonsingular (N S k : ℕ) (gram : Matrix (Fin N) (Fin N) ℚ)
    (train_idcs : Fin S → Fin k → ℕ) (s : Fin S)
    (h : (submatr N S k gram train_idcs s).det ≠ 0) :
    ∀ res, invert_submatr N S k gram train_idcs false = Sum.inr res →
      res s * submatr N S k gram train_idcs s = 1 := by
  intro res hres
  have hdef : invert_submatr N S k gram train_idcs false =
      Sum.inr (vinvert S k (submatr N S k gram train_idcs)) := rfl
  rw [hdef] at hres
  obtain rfl := Sum.inr.inj hres
  exact (jnpInv_mul k _ h).1

/-- Concrete instance of invert_submatr_nonsingular: gram = diag(2, 3),
indices [[0]]; the returned 1×1 matrix inverts the extracted block. -/
theorem invert_submatr_nonsingular_witness :
    vinvert 1 1 (submatr 2 1 1 !![(2 : ℚ), 0; 0, 3] ![![0]]) 0 *
      submatr 2 1 1 !![(2 : ℚ), 0; 0, 3] ![![0]] 0 = 1 :=
  invert_submatr_nonsingular 2 1 1 !![(2 : ℚ), 0; 0, 3] ![![0]] 0
    submatr_witness_det _ rfl

theorem train_sel_matr_not_mem (N S k : ℕ) (train_idcs : Fin S → Fin k → ℕ)
    (s : Fin S) (c : Fin N) (hc : ∀ r, train_idcs s r ≠ (c : ℕ)) (a : Fin k) :
    train_sel_matr N S k train_idcs s a c = 0 := by
  rw [train_sel_matr, Matrix.of_apply, idcs_to_selection_matr_apply, if_neg]
  intro hEq
  obtain ⟨r, hr⟩ := (splitRow_mem S k train_idcs false s _).1
    (splitRow_getD_mem S k train_idcs false s a)
  exact hc r (hr.trans hEq.symm)

/-- C3: with zerofill = True, split s of the result is selᵀ * inv * sel for
that split's selection matrix and submatrix inverse, and therefore vanishes
at every (row, col) whose row or column index is not among the split's
indices. -/
theorem invert_submatr_zerofill (N S k : ℕ) (gram : Matrix (Fin N) (Fin N) ℚ)
    (train_idcs : Fin S → Fin k → ℕ) (s : Fin S)
    (h : (submatr N S k gram train_idcs s).det ≠ 0) :
    ∀ res, invert_submatr N S k gram train_idcs true = Sum.inl res →
      res s = (train_sel_matr N S k train_idcs s)ᵀ *
          jnpInv k (submatr N S k gram train_idcs s) *
          train_sel_matr N S k train_idcs s ∧
      jnpInv k (submatr N S k gram train_idcs s) *
          submatr N S k gram train_idcs s = 1 ∧
      (∀ i j : Fin N,
        ((∀ r, train_idcs s r ≠ (i : ℕ)) ∨ (∀ r, train_idcs s r ≠ (j : ℕ))) →
        res s i j = 0) := by
  intro res hres
  have hdef : invert_submatr N S k gram train_idcs true =
      Sum.inl (sym_matmul_variable_inp S N k
        (fun s0 => (train_sel_matr N S k train_idcs s0)ᵀ)
        (vinvert S k (submatr N S k gram train_idcs))) := rfl
  rw [hdef] at hres
  obtain rfl := Sum.inl.inj hres
  have hsplit : sym_matmul_variable_inp S N k
      (fun s0 => (train_sel_matr N S k train_idcs s0)ᵀ)
      (vinvert S k (submatr N S k gram train_idcs)) s =
      (train_sel_matr N S k train_idcs s)ᵀ *
        jnpInv k (submatr N S k gram train_idcs s) *
        train_sel_matr N S k train_idcs s := by
    show (train_sel_matr N S k train_idcs s)ᵀ *
        jnpInv k (submatr N S k gram train_idcs s) *
        ((train_sel_matr N S k train_idcs s)ᵀ)ᵀ = _
    rw [Matrix.transpose_transpose]
  refine ⟨hsplit, (jnpInv_mul k _ h).1, ?_⟩
  intro i j hij
  rw [hsplit]
  rcases hij with hrow | hcol
  · rw [Matrix.mul_apply]
    refine Finset.sum_eq_zero fun b _ => ?_
    rw [Matrix.mul_apply, Finset.sum_eq_zero fun a _ => ?_, zero_mul]
    rw [Matrix.transpose_apply, train_sel_matr_not_mem N S k train_idcs s i hrow a,
      zero_mul]
  · rw [Matrix.mul_apply]
    refine Finset.sum_eq_zero fun b _ => ?_
    rw [train_sel_matr_not_mem N S k train_idcs s j hcol b, mul_zero]

/-- Concrete instance of invert_submatr_zerofill: gram = diag(2, 3), indices
[[0]]; entry (1, 1) of the zerofilled result is 0 since row 1 is unselected. -/
theorem invert_submatr_zerofill_witness :
    sym_matmul_variable_inp 1 2 1
      (fun s0 => (train_sel_matr 2 1 1 ![![0]] s0)ᵀ)
      (vinvert 1 1 (submatr 2 1 1 !![(2 : ℚ), 0; 0, 3] ![![0]])) 0 1 1 = 0 :=
  ((invert_submatr_zerofill 2 1 1 !![(2 : ℚ), 0; 0, 3] ![![0]] 0
      submatr_witness_det _ rfl).2.2 1 1
    (Or.inl (by decide)))

/-- C9 counterexample: with N = 2 and the out-of-range index 5, the builder
does not reject the input: it silently returns the all-zero selection
tensor — the scatter update for the out-of-range column is dropped. -/
theorem selection_matr_out_of_range_counterexample :
    idcs_to_selection_matr 2 1 1 ![![5]] false = fun _ _ _ => 0 := by
  funext s r c
  rw [idcs_to_selection_matr_apply, if_neg]
  intro hEq
  obtain ⟨r', hr'⟩ := (splitRow_mem 1 1 ![![5]] false s _).1
    (splitRow_getD_mem 1 1 ![![5]] false s r)
  have h5 : (![![5]] : Fin 1 → Fin 1 → ℕ) s r' = 5 := by
    fin_cases s <;> fin_cases r' <;> rfl
  have := c.isLt
  omega

/-- C9 amended: out-of-range indices are silently dropped rather than
rejected: the builder is total, and every selection-tensor row whose
(sorted) index entry lies outside [0, N) is all zeros. -/
theorem selection_matr_out_of_range_dropped (N S k : ℕ)
    (idcs : Fin S → Fin k → ℕ) (b : Bool) (s : Fin S) (r : Fin k)
    (h : N ≤ (splitRow S k idcs b s).getD (r : ℕ) 0) (c : Fin N) :
    idcs_to_selection_matr N S k idcs b s r c = 0 := by
  rw [idcs_to_selection_matr_apply, if_neg]
  have := c.isLt
  omega

/-- Concrete instance of selection_matr_out_of_range_dropped at N = 2,
index 5. -/
theorem selection_matr_out_of_range_dropped_witness :
    idcs_to_selection_matr 2 1 1 ![![5]] false 0 0 1 = 0 :=
  selection_matr_out_of_range_dropped 2 1 1 ![![5]] false 0 0 (by decide) 1

/-- Modelled from the spec: a feature vector of length m (InpVecT/OutVecT
from the rkhs module, outside the given sources) is abstracted by its Gram
matrix, the value of inp_feat.inner(); len(inp_feat) = m. -/
structure FeatVec (m : ℕ) where
  inner : Matrix (Fin m) (Fin m) ℚ

/-- Modelled from the spec: FiniteOp, the finite operator triple (input
feature set, output feature set, coefficient matrix). -/
structure FiniteOp (m p : ℕ) where
  inp_feat : FeatVec m
  outp_feat : FeatVec p
  matr : Matrix (Fin m) (Fin m) ℚ

/-- A regularization argument as it stands after np.array(regul,
dtype=np.float32): a scalar or a 1-D vector. -/
inductive Regul where
  | scalar (r : ℚ)
  | vector (v : List ℚ)

/-- The eager shape check shared by Cmo, RidgeCmo and Cdo:
regul.squeeze().size == 1 or regul.squeeze().shape[0] == len(inp_feat). -/
def regulOK (m : ℕ) : Regul → Bool
  | .scalar _ => true
  | .vector v => v.length == 1 || v.length == m

/-- regul * np.eye(m): a scalar scales the identity; a 1-D vector
broadcasts across the columns of the identity (a length-1 vector acting
like a scalar, a length-m vector as a diagonal). -/
def regulMat (m : ℕ) : Regul → Matrix (Fin m) (Fin m) ℚ
  | .scalar r => r • (1 : Matrix (Fin m) (Fin m) ℚ)
  | .vector v =>
    Matrix.of fun i j =>
      (if v.length = 1 then v.getD 0 0 else v.getD (j : ℕ) 0) *
        (1 : Matrix (Fin m) (Fin m) ℚ) i j

/-- Cmo(inp_feat, outp_feat, regul) from conditional_operator.py: when regul
is given, assert its squeezed shape, then return
CrossCovOp(Cov_solve(CovOp(inp_feat), inp_feat, regul), outp_feat).
Modelled from the spec: CovOp, Cov_solve and CrossCovOp are external
covariance-solve collaborators, abstracted by the cross_solve argument; a
failed assert is the none outcome. -/
def Cmo {R : Type} (m p : ℕ) (inp_feat : FeatVec m) (outp_feat : FeatVec p)
    (regul : Option Regul)
    (cross_solve : FeatVec m → Option Regul → FeatVec p → R) : Option R :=
  match regul with
  | none => some (cross_solve inp_feat none outp_feat)
  | some rg =>
    if regulOK m rg then some (cross_solve inp_feat (some rg) outp_feat)
    else none

/-- RidgeCmo(inp_feat, outp_feat, regul) from conditional_operator.py: when
regul is absent substitute Cov_regul(1, len(inp_feat)), else assert its
shape; return FiniteOp(inp_feat, outp_feat,
np.linalg.inv(inp_feat.inner() + regul * np.eye(len(inp_feat)))).
Modelled from the spec: Cov_regul, the default regularization schedule from
the rkhs module, enters as the schedule argument cov_regul. -/
def RidgeCmo (m p : ℕ) (inp_feat : FeatVec m) (outp_feat : FeatVec p)
    (regul : Option Regul) (cov_regul : ℕ → ℕ → ℚ) : Option (FiniteOp m p) :=
  match regul with
  | none =>
    some ⟨inp_feat, outp_feat,
      jnpInv m (inp_feat.inner + regulMat m (.scalar (cov_regul 1 m)))⟩
  | some rg =>
    if regulOK m rg then
      some ⟨inp_feat, outp_feat, jnpInv m (inp_feat.inner + regulMat m rg)⟩
    else none

/-- Cdo(inp_feat, outp_feat, ref_feat, regul) from conditional_operator.py:
when regul is given, assert its shape; then build
Cmo(inp_feat, outp_feat, regul) and solve the ref_feat covariance operator
against it (Cov_solve(CovOp(ref_feat), mo, regul)), abstracted by
ref_solve. -/
def Cdo {R R2 : Type} (m p q : ℕ) (inp_feat : FeatVec m)
    (outp_feat : FeatVec p) (ref_feat : FeatVec q) (regul : Option Regul)
    (cross_solve : FeatVec m → Option Regul → FeatVec p → R)
    (ref_solve : FeatVec q → Option Regul → R → R2) : Option R2 :=
  match regul with
  | none =>
    (Cmo m p inp_feat outp_feat none cross_solve).map (ref_solve ref_feat none)
  | some rg =>
    if regulOK m rg then
      (Cmo m p inp_feat outp_feat (some rg) cross_solve).map
        (ref_solve ref_feat (some rg))
    else none

/-- C6: RidgeCmo with regul = None draws the default schedule at count 1 and
sample size len(inp_feat); every accepted call returns the finite operator
from inp_feat to outp_feat whose coefficient matrix is the dense inverse of
K + regul·I, K the Gram matrix of inp_feat — whenever that regularized
matrix is non-singular its coefficient matrix is a two-sided inverse. -/
theorem ridge_cmo_spec (m p : ℕ) (inp_feat : FeatVec m) (outp_feat : FeatVec p)
    (cov_regul : ℕ → ℕ → ℚ) :
    (RidgeCmo m p inp_feat outp_feat none cov_regul =
      some ⟨inp_feat, outp_feat,
        jnpInv m (inp_feat.inner +
          cov_regul 1 m • (1 : Matrix (Fin m) (Fin m) ℚ))⟩) ∧
    (∀ rg : Regul, regulOK m rg = true →
      RidgeCmo m p inp_feat outp_feat (some rg) cov_regul =
        some ⟨inp_feat, outp_feat, jnpInv m (inp_feat.inner + regulMat m rg)⟩) ∧
    (∀ rg : Regul, regulOK m rg = true →
      (inp_feat.inner + regulMat m rg).det ≠ 0 →
      ∀ op, RidgeCmo m p inp_feat outp_feat (some rg) cov_regul = some op →
        op.matr * (inp_feat.inner + regulMat m rg) = 1 ∧
        (inp_feat.inner + regulMat m rg) * op.matr = 1) ∧
    ((inp_feat.inner + cov_regul 1 m • (1 : Matrix (Fin m) (Fin m) ℚ)).det ≠ 0 →
      ∀ op, RidgeCmo m p inp_feat outp_feat none cov_regul = some op →
        op.matr * (inp_feat.inner +
          cov_regul 1 m • (1 : Matrix (Fin m) (Fin m) ℚ)) = 1 ∧
        (inp_feat.inner +
          cov_regul 1 m • (1 : Matrix (Fin m) (Fin m) ℚ)) * op.matr = 1) := by
  refine ⟨rfl, ?_, ?_, ?_⟩
  · intro rg h
    simp [RidgeCmo, h]
  · intro rg h hdet op hop
    simp only [RidgeCmo, h, if_true] at hop
    obtain rfl := Option.some.inj hop
    exact jnpInv_mul m _ hdet
  · intro hdet op hop
    obtain rfl := Option.some.inj hop
    exact jnpInv_mul m _ hdet

/-- Concrete instance of ridge_cmo_spec: Gram = [[2]], scalar regul 1; the
coefficient matrix inverts [[3]]. -/
theorem ridge_cmo_spec_witness :
    jnpInv 1 ((⟨!![(2 : ℚ)]⟩ : FeatVec 1).inner + regulMat 1 (Regul.scalar 1)) *
      ((⟨!![(2 : ℚ)]⟩ : FeatVec 1).inner + regulMat 1 (Regul.scalar 1)) = 1 := by
  have hdet : ((⟨!![(2 : ℚ)]⟩ : FeatVec 1).inner +
      regulMat 1 (Regul.scalar 1)).det ≠ 0 := by
    rw [Matrix.det_fin_one]
    norm_num [regulMat, Matrix.add_apply, Matrix.smul_apply, Matrix.one_apply]
  exact ((ridge_cmo_spec 1 1 ⟨!![(2 : ℚ)]⟩ ⟨!![(0 : ℚ)]⟩ (fun _ _ => 0)).2.2.1
    (Regul.scalar 1) rfl hdet
    ⟨⟨!![(2 : ℚ)]⟩, ⟨!![(0 : ℚ)]⟩,
      jnpInv 1 ((⟨!![(2 : ℚ)]⟩ : FeatVec 1).inner + regulMat 1 (Regul.scalar 1))⟩
    rfl).1

/-- C7: each of Cmo, RidgeCmo and Cdo validates the shape of a supplied
regul eagerly: when its squeezed form is neither a single scalar nor a
vector of matching length, the constructor fails for every solver, schedule
and Gram matrix — no covariance solve or inversion can influence the
outcome — and when the shape is accepted no such failure occurs. -/
theorem regul_shape_check (m p q : ℕ) (inp_feat : FeatVec m)
    (outp_feat : FeatVec p) (ref_feat : FeatVec q) (rg : Regul)
    (cov_regul : ℕ → ℕ → ℚ) {R R2 : Type}
    (cross_solve : FeatVec m → Option Regul → FeatVec p → R)
    (ref_solve : FeatVec q → Option Regul → R → R2) :
    (regulOK m rg = false →
      Cmo m p inp_feat outp_feat (some rg) cross_solve = none ∧
      RidgeCmo m p inp_feat outp_feat (some rg) cov_regul = none ∧
      Cdo m p q inp_feat outp_feat ref_feat (some rg) cross_solve ref_solve =
        none) ∧
    (regulOK m rg = true →
      (Cmo m p inp_feat outp_feat (some rg) cross_solve).isSome = true ∧
      (RidgeCmo m p inp_feat outp_feat (some rg) cov_regul).isSome = true ∧
      (Cdo m p q inp_feat outp_feat ref_feat (some rg) cross_solve
        ref_solve).isSome = true) := by
  constructor
  · intro h
    refine ⟨?_, ?_, ?_⟩ <;> simp [Cmo, RidgeCmo, Cdo, h]
  · intro h
    refine ⟨?_, ?_, ?_⟩ <;> simp [Cmo, RidgeCmo, Cdo, h]

/-- Concrete instance of regul_shape_check: with 2 input features, a
length-3 regul vector is rejected by RidgeCmo while a scalar is accepted. -/
theorem regul_shape_check_witness :
    RidgeCmo 2 2 ⟨1⟩ ⟨1⟩ (some (Regul.vector [1, 2, 3])) (fun _ _ => 0) =
      none ∧
    (RidgeCmo 2 2 ⟨1⟩ ⟨1⟩ (some (Regul.scalar 0)) (fun _ _ => 0)).isSome =
      true :=
  ⟨((regul_shape_check 2 2 2 ⟨1⟩ ⟨1⟩ ⟨1⟩ (Regul.vector [1, 2, 3]) (fun _ _ => 0)
      (fun _ _ _ => (0 : ℚ)) (fun _ _ _ => (0 : ℚ))).1 rfl).2.1,
    ((regul_shape_check 2 2 2 ⟨1⟩ ⟨1⟩ ⟨1⟩ (Regul.scalar 0) (fun _ _ => 0)
      (fun _ _ _ => (0 : ℚ)) (fun _ _ _ => (0 : ℚ))).2 rfl).2.1⟩

/-- Identity-matrix entry over unbounded indices, np.eye(N) restricted to
the index range actually used. -/
def eyeN (i j : ℕ) : ℚ := if i = j then 1 else 0

/-- Product of two N-by-N matrices represented as entry functions. -/
def matMulN (N : ℕ) (A B : ℕ → ℕ → ℚ) : ℕ → ℕ → ℚ :=
  fun i j => ((List.range N).map fun l => A i l * B l j).sum

/-- Trace of an N-by-N matrix represented as an entry function. -/
def traceN (N : ℕ) (A : ℕ → ℕ → ℚ) : ℚ :=
  ((List.range N).map fun i => A i i).sum

/-- Modelled from the spec: a point array (the argument of inducing_set) is
abstracted by its shape — len(points) is the leading dimension — and its
entries; the Kernel capability turning points into a Gram matrix is
external and enters as a parameter of inducing_set. -/
structure PtsArr where
  shape : List ℕ
  entry : ℕ → ℕ → ℚ

/-- Modelled from the spec: the result object of the external numerical
optimizer (scipy.optimize.minimize) — a success flag and the optimal
flattened parameter vector. -/
structure OptResult where
  success : Bool
  x : ℕ → ℚ

/-- The tuple returned by inducing_set: approximation matrix, selected
mask, per-point approximation distances, and the cost function. -/
structure IndResult where
  appr_matr : ℕ → ℕ → ℚ
  selected : ℕ → Bool
  distances : ℕ → ℚ
  cost : (ℕ → ℕ → ℚ) → (ℕ → ℚ) → ℚ

/-- inducing_set(points, k, non_sparse_penalty) from inducing.py: assert
penalty > 0, len(points) > 1 and 2-D input; G = k(points); minimize the
flattened cost (trace((I - A diag(lamb)) G (I - A diag(lamb))^T) +
penalty * sum(lamb)) / N over lamb in [0,1]^N (bounded) and A (unbounded),
starting from lamb = ones, A = eye; assert convergence; select points with
lamb > 0, build the approximation matrix (identity rows for selected
points, A diag(lamb) rows otherwise) and the distances
diag((I - appr) G (I - appr)^T); assert at least one selected point.
The optimizer is the external capability minimize(objective, init, bounds)
(its jac argument is the gradient of the objective, determined by it); an
assertion failure is the none outcome. -/
def inducing_set (points : PtsArr) (k : PtsArr → ℕ → ℕ → ℚ)
    (non_sparse_penalty : ℚ)
    (minimize : ((ℕ → ℚ) → ℚ) → (ℕ → ℚ) → List (Option ℚ × Option ℚ) →
      OptResult) : Option IndResult :=
  if non_sparse_penalty > 0 then
    if points.shape.getD 0 0 > 1 then
      if points.shape.length = 2 then
        let N := points.shape.getD 0 0
        let G := k points
        let cost : (ℕ → ℕ → ℚ) → (ℕ → ℚ) → ℚ := fun A lamb =>
          let fact : ℕ → ℕ → ℚ := fun i j => eyeN i j - A i j * lamb j
          (traceN N (matMulN N (matMulN N fact G) fun i j => fact j i) +
            non_sparse_penalty * ((List.range N).map lamb).sum) / (N : ℚ)
        let extract : (ℕ → ℚ) → (ℕ → ℕ → ℚ) × (ℕ → ℚ) := fun params =>
          (fun i j => params (N + i * N + j), fun i => params i)
        let flat_cost : (ℕ → ℚ) → ℚ := fun params =>
          cost (extract params).1 (extract params).2
        let init : ℕ → ℚ := fun idx =>
          if idx < N then 1 else eyeN ((idx - N) / N) ((idx - N) % N)
        let bounds := List.replicate N (some (0 : ℚ), some (1 : ℚ)) ++
          List.replicate (N * N) ((none : Option ℚ), (none : Option ℚ))
        let rval := minimize flat_cost init bounds
        if rval.success then
          let A := (extract rval.x).1
          let lamb := (extract rval.x).2
          let selected : ℕ → Bool := fun i => decide (lamb i > 0)
          let appr_matr : ℕ → ℕ → ℚ := fun i j =>
            if selected i then eyeN i j else A i j * lamb j
          let fact : ℕ → ℕ → ℚ := fun i j => eyeN i j - appr_matr i j
          let m := ((List.range N).filter fun i => selected i).length
          let distances : ℕ → ℚ := fun i =>
            matMulN N (matMulN N fact G) (fun a b => fact b a) i i
          if m > 0 then some ⟨appr_matr, selected, distances, cost⟩ else none
        else none
      else none
    else none
  else none

/-- C10: inducing_set validates penalty > 0, len(points) > 1 and 2-D input
eagerly — a violation yields no result for every kernel and every
optimizer; a reported convergence failure is fatal (no partial result); a
degenerate optimum with no positive lambda entry is fatal; and when all
checks pass with a convergent optimizer selecting at least one point, a
result is returned. -/
theorem inducing_set_contract (points : PtsArr) (k : PtsArr → ℕ → ℕ → ℚ)
    (penalty : ℚ)
    (minimize : ((ℕ → ℚ) → ℚ) → (ℕ → ℚ) → List (Option ℚ × Option ℚ) →
      OptResult) :
    (¬ penalty > 0 → inducing_set points k penalty minimize = none) ∧
    (¬ points.shape.getD 0 0 > 1 →
      inducing_set points k penalty minimize = none) ∧
    (points.shape.length ≠ 2 →
      inducing_set points k penalty minimize = none) ∧
    ((∀ f x0 bd, (minimize f x0 bd).success = false) →
      inducing_set points k penalty minimize = none) ∧
    ((∀ f x0 bd, (minimize f x0 bd).success = true) →
      (∀ f x0 bd i, ¬ ((minimize f x0 bd).x i > 0)) →
      inducing_set points k penalty minimize = none) ∧
    (penalty > 0 → points.shape.getD 0 0 > 1 → points.shape.length = 2 →
      (∀ f x0 bd, (minimize f x0 bd).success = true) →
      (∀ f x0 bd, ∃ i, i < points.shape.getD 0 0 ∧ (minimize f x0 bd).x i > 0) →
      (inducing_set points k penalty minimize).isSome = true) := by
  refine ⟨?_, ?_, ?_, ?_, ?_, ?_⟩
  · intro h
    unfold inducing_set
    rw [if_neg h]
  · intro h
    unfold inducing_set
    by_cases h1 : penalty > 0
    · rw [if_pos h1, if_neg h]
    · rw [if_neg h1]
  · intro h
    unfold inducing_set
    by_cases h1 : penalty > 0
    · rw [if_pos h1]
      by_cases h2 : points.shape.getD 0 0 > 1
      · rw [if_pos h2, if_neg h]
      · rw [if_neg h2]
    · rw [if_neg h1]
  · intro hmin
    unfold inducing_set
    by_cases h1 : penalty > 0
    · rw [if_pos h1]
      by_cases h2 : points.shape.getD 0 0 > 1
      · rw [if_pos h2]
        by_cases h3 : points.shape.length = 2
        · rw [if_pos h3]
          simp only [hmin, Bool.false_eq_true, if_false]
        · rw [if_neg h3]
      · rw [if_neg h2]
    · rw [if_neg h1]
  · intro hsucc hno
    unfold inducing_set
    by_cases h1 : penalty > 0
    · rw [if_pos h1]
      by_cases h2 : points.shape.getD 0 0 > 1
      · rw [if_pos h2]
        by_cases h3 : points.shape.length = 2
        · rw [if_pos h3]
          simp only [hsucc, if_true]
          split
          · next hpos =>
              exfalso
              obtain ⟨a, ha⟩ := List.exists_mem_of_length_pos hpos
              obtain ⟨-, hpa⟩ := List.mem_filter.1 ha
              exact hno _ _ _ a (of_decide_eq_true hpa)
          · rfl
        · rw [if_neg h3]
      · rw [if_neg h2]
    · rw [if_neg h1]
  · intro h1 h2 h3 hsucc hsel
    unfold inducing_set
    rw [if_pos h1, if_pos h2, if_pos h3]
    simp only [hsucc, if_true]
    split
    · rfl
    · next hneg =>
        obtain ⟨i, hiN, hip⟩ := hsel _ _ _
        exact absurd (List.length_pos.2 (List.ne_nil_of_mem
          (List.mem_filter.2 ⟨List.mem_range.2 hiN, decide_eq_true hip⟩))) hneg

/-- Concrete instance of inducing_set_contract: a 1-D point array is
rejected, while a well-formed call with a convergent optimizer that selects
point 0 returns a result. -/
theorem inducing_set_contract_witness :
    inducing_set ⟨[3], fun _ _ => 0⟩ (fun _ _ _ => 0) 1
      (fun _ _ _ => ⟨true, fun _ => 1⟩) = none ∧
    (inducing_set ⟨[2, 1], fun _ _ => 0⟩ (fun _ _ _ => 0) 1
      (fun _ _ _ => ⟨true, fun _ => 1⟩)).isSome = true := by
  constructor
  · exact (inducing_set_contract ⟨[3], fun _ _ => 0⟩ (fun _ _ _ => 0) 1
      (fun _ _ _ => ⟨true, fun _ => 1⟩)).2.2.1 (by decide)
  · exact (inducing_set_contract ⟨[2, 1], fun _ _ => 0⟩ (fun _ _ _ => 0) 1
      (fun _ _ _ => ⟨true, fun _ => 1⟩)).2.2.2.2.2 (by norm_num) (by decide) rfl
      (fun _ _ _ => rfl) (fun _ _ _ => ⟨0, by decide, by norm_num⟩)

end JaxRK
